import Mathlib

/-!
Verification of the contour-generator tile work-distribution core.

Each definition is a shallow embedding of the corresponding function of the
source repository (file and symbol named in its doc comment); theorems settle
the specification claims about them.
-/

set_option maxHeartbeats 1000000

namespace ContourGen

/-- Tile coordinate. The source represents a tile as the array `[x, y, z]`
(`generate-countour-tile-pyramid`: `type Tile = [number, number, number]`,
with `z = v[2]`, `x = v[0]`, `y = v[1]`). -/
structure Tile where
  x : ℕ
  y : ℕ
  z : ℕ
deriving DecidableEq, Repr

/-- Modelled from the spec: `getChildren` is imported from the external
`@mapbox/tilebelt` package, which is not part of this repository.  Section 4.1
of the spec lists the four children `(2x,2y),(2x+1,2y),(2x,2y+1),(2x+1,2y+1)`
at zoom `z+1`. -/
def getChildren (t : Tile) : List Tile :=
  [⟨2 * t.x, 2 * t.y, t.z + 1⟩, ⟨2 * t.x + 1, 2 * t.y, t.z + 1⟩,
   ⟨2 * t.x, 2 * t.y + 1, t.z + 1⟩, ⟨2 * t.x + 1, 2 * t.y + 1, t.z + 1⟩]

theorem z_of_mem_getChildren {c t : Tile} (h : c ∈ getChildren t) : c.z = t.z + 1 := by
  simp only [getChildren, List.mem_cons, List.not_mem_nil, or_false] at h
  rcases h with h | h | h | h <;> subst h <;> rfl

/-- Inner recursion of `getAllTiles` (`generate-countour-tile-pyramid`,
`getTileList`): append the children of `currentTile` whose zoom is at most
`outputMaxZoom`, then recurse into each child whose zoom is strictly below
`outputMaxZoom`.  The source recursion terminates because each child's zoom
is one larger; here the bound `maxZoom - t.z` is passed as structural fuel,
and `getTileList_eq` below recovers the source's exact recursion equation. -/
def getTileListAux (maxZoom : ℕ) : ℕ → Tile → List Tile
  | 0, _ => []
  | fuel + 1, t =>
    let children := (getChildren t).filter (fun c => c.z ≤ maxZoom)
    children ++ children.flatMap (fun c =>
      if c.z < maxZoom then getTileListAux maxZoom fuel c else [])

def getTileList (maxZoom : ℕ) (t : Tile) : List Tile :=
  getTileListAux maxZoom (maxZoom - t.z) t

theorem filter_getChildren_of_le {t : Tile} {maxZoom : ℕ} (h : maxZoom ≤ t.z) :
    (getChildren t).filter (fun c => c.z ≤ maxZoom) = [] := by
  rw [List.filter_eq_nil_iff]
  intro c hc
  have := z_of_mem_getChildren hc
  simp only [decide_eq_true_eq]
  omega

theorem getTileListAux_congr (maxZoom : ℕ) :
    ∀ fuel₁ fuel₂ t, maxZoom - t.z ≤ fuel₁ → maxZoom - t.z ≤ fuel₂ →
      getTileListAux maxZoom fuel₁ t = getTileListAux maxZoom fuel₂ t := by
  intro fuel₁
  induction fuel₁ with
  | zero =>
    intro fuel₂ t h1 _
    cases fuel₂ with
    | zero => rfl
    | succ f =>
      simp only [getTileListAux, filter_getChildren_of_le (by omega : maxZoom ≤ t.z),
        List.flatMap_nil, List.append_nil]
  | succ f ih =>
    intro fuel₂ t h1 h2
    cases fuel₂ with
    | zero =>
      simp only [getTileListAux, filter_getChildren_of_le (by omega : maxZoom ≤ t.z),
        List.flatMap_nil, List.append_nil]
    | succ g =>
      simp only [getTileListAux]
      congr 1
      apply List.flatMap_congr
      intro c hc
      have hcz := z_of_mem_getChildren (List.mem_of_mem_filter hc)
      by_cases h : c.z < maxZoom
      · simp only [if_pos h]
        exact ih g c (by omega) (by omega)
      · simp [h]

/-- Unfolding equation for `getTileList`, matching the source recursion of
`getTileList` inside `getAllTiles` verbatim: filtered children are appended,
then each child with zoom strictly below `outputMaxZoom` is expanded. -/
theorem getTileList_eq (maxZoom : ℕ) (t : Tile) :
    getTileList maxZoom t =
      ((getChildren t).filter (fun c => c.z ≤ maxZoom)) ++
      ((getChildren t).filter (fun c => c.z ≤ maxZoom)).flatMap (fun c =>
        if c.z < maxZoom then getTileList maxZoom c else []) := by
  unfold getTileList
  rcases Nat.eq_zero_or_pos (maxZoom - t.z) with h0 | hpos
  · rw [h0]
    rw [filter_getChildren_of_le (by omega : maxZoom ≤ t.z)]
    simp [getTileListAux]
  · obtain ⟨f, hf⟩ : ∃ f, maxZoom - t.z = f + 1 := ⟨maxZoom - t.z - 1, by omega⟩
    rw [hf]
    simp only [getTileListAux]
    congr 1
    apply List.flatMap_congr
    intro c hc
    have hcz := z_of_mem_getChildren (List.mem_of_mem_filter hc)
    by_cases h : c.z < maxZoom
    · simp only [if_pos h]
      exact getTileListAux_congr maxZoom f (maxZoom - c.z) c (by omega) (le_refl _)
    · simp [h]

/-- Embedding of `getAllTiles` (`generate-countour-tile-pyramid`): the root
tile followed by the recursively collected descendants. -/
def getAllTiles (t : Tile) (maxZoom : ℕ) : List Tile :=
  t :: getTileList maxZoom t

/-- One subdivision step: `child` is one of the four quadtree children of
`parent`. -/
def IsChild (parent child : Tile) : Prop := child ∈ getChildren parent

/-- Claim-side reachability by repeated quadtree subdivision (§8 of the spec). -/
def Descends : Tile → Tile → Prop := Relation.ReflTransGen IsChild

theorem Descends.z_le {a b : Tile} (h : Descends a b) : a.z ≤ b.z := by
  induction h with
  | refl => exact le_refl _
  | tail _ hstep ih =>
    have := z_of_mem_getChildren hstep
    omega

theorem Descends.eq_of_z_ge {a b : Tile} (h : Descends a b) (hz : b.z ≤ a.z) : a = b := by
  induction h with
  | refl => rfl
  | tail hab hstep ih =>
    have h1 := Descends.z_le hab
    have h2 := z_of_mem_getChildren hstep
    omega

theorem z_lt_of_descends_ne {a b : Tile} (h : Descends a b) (hne : b ≠ a) : a.z < b.z := by
  rcases Relation.ReflTransGen.cases_head h with h1 | ⟨c, hc, hcb⟩
  · exact absurd h1.symm hne
  · have h2 := z_of_mem_getChildren hc
    have h3 := Descends.z_le hcb
    omega

theorem IsChild.parent_eq {p c : Tile} (h : IsChild p c) :
    p.x = c.x / 2 ∧ p.y = c.y / 2 ∧ p.z + 1 = c.z := by
  simp only [IsChild, getChildren, List.mem_cons, List.not_mem_nil, or_false] at h
  rcases h with h | h | h | h <;> subst h <;> dsimp only <;> exact ⟨by omega, by omega, rfl⟩

theorem parent_unique {p q c : Tile} (hp : IsChild p c) (hq : IsChild q c) : p = q := by
  obtain ⟨h1, h2, h3⟩ := hp.parent_eq
  obtain ⟨h4, h5, h6⟩ := hq.parent_eq
  cases p
  cases q
  simp_all
  omega

theorem descends_unique_aux (n : ℕ) : ∀ u a b : Tile, u.z ≤ n →
    Descends a u → Descends b u → a.z = b.z → a = b := by
  induction n with
  | zero =>
    intro u a b hu ha hb hz
    have hau : a = u := by
      rcases Relation.ReflTransGen.cases_tail ha with h | ⟨p, _, hpu⟩
      · exact h.symm
      · have := (IsChild.parent_eq hpu).2.2
        omega
    have hbu : b = u := by
      rcases Relation.ReflTransGen.cases_tail hb with h | ⟨p, _, hpu⟩
      · exact h.symm
      · have := (IsChild.parent_eq hpu).2.2
        omega
    rw [hau, hbu]
  | succ n ih =>
    intro u a b hu ha hb hz
    rcases Relation.ReflTransGen.cases_tail ha with h | ⟨p, hap, hpu⟩
    · subst h
      exact (Descends.eq_of_z_ge hb (by omega)).symm
    · rcases Relation.ReflTransGen.cases_tail hb with h | ⟨q, hbq, hqu⟩
      · subst h
        exact Descends.eq_of_z_ge ha (by omega)
      · have hpq : p = q := parent_unique hpu hqu
        subst hpq
        have hpz := (IsChild.parent_eq hpu).2.2
        exact ih p a b (by omega) hap hbq hz

theorem descends_unique {a b u : Tile} (ha : Descends a u) (hb : Descends b u)
    (hz : a.z = b.z) : a = b :=
  descends_unique_aux u.z u a b le_rfl ha hb hz

theorem mem_getTileList_z_aux (maxZoom : ℕ) : ∀ n t u, maxZoom - t.z ≤ n →
    u ∈ getTileList maxZoom t → t.z < u.z ∧ u.z ≤ maxZoom := by
  intro n
  induction n with
  | zero =>
    intro t u hn hu
    rw [getTileList, show maxZoom - t.z = 0 from by omega] at hu
    simp [getTileListAux] at hu
  | succ n ih =>
    intro t u hn hu
    rw [getTileList_eq] at hu
    rcases List.mem_append.mp hu with h | h
    · have hz := z_of_mem_getChildren (List.mem_of_mem_filter h)
      have hle : decide (u.z ≤ maxZoom) = true := (List.mem_filter.mp h).2
      simp only [decide_eq_true_eq] at hle
      omega
    · rw [List.mem_flatMap] at h
      obtain ⟨c, hcmem, hcu⟩ := h
      have hcz := z_of_mem_getChildren (List.mem_of_mem_filter hcmem)
      by_cases hlt : c.z < maxZoom
      · rw [if_pos hlt] at hcu
        have := ih c u (by omega) hcu
        omega
      · rw [if_neg hlt] at hcu
        exact absurd hcu (List.not_mem_nil u)

theorem mem_getTileList_z {maxZoom : ℕ} {t u : Tile} (hu : u ∈ getTileList maxZoom t) :
    t.z < u.z ∧ u.z ≤ maxZoom :=
  mem_getTileList_z_aux maxZoom (maxZoom - t.z) t u le_rfl hu

theorem descends_of_mem_getTileList_aux (maxZoom : ℕ) : ∀ n t u, maxZoom - t.z ≤ n →
    u ∈ getTileList maxZoom t → Descends t u := by
  intro n
  induction n with
  | zero =>
    intro t u hn hu
    rw [getTileList, show maxZoom - t.z = 0 from by omega] at hu
    simp [getTileListAux] at hu
  | succ n ih =>
    intro t u hn hu
    rw [getTileList_eq] at hu
    rcases List.mem_append.mp hu with h | h
    · exact Relation.ReflTransGen.single (List.mem_of_mem_filter h)
    · rw [List.mem_flatMap] at h
      obtain ⟨c, hcmem, hcu⟩ := h
      have hcz := z_of_mem_getChildren (List.mem_of_mem_filter hcmem)
      by_cases hlt : c.z < maxZoom
      · rw [if_pos hlt] at hcu
        exact Relation.ReflTransGen.head (List.mem_of_mem_filter hcmem) (ih c u (by omega) hcu)
      · rw [if_neg hlt] at hcu
        exact absurd hcu (List.not_mem_nil u)

theorem mem_getTileList_of_descends_aux (maxZoom : ℕ) : ∀ n t u, maxZoom - t.z ≤ n →
    Descends t u → u.z ≤ maxZoom → u ≠ t → u ∈ getTileList maxZoom t := by
  intro n
  induction n with
  | zero =>
    intro t u hn hd hz hne
    have := z_lt_of_descends_ne hd hne
    omega
  | succ n ih =>
    intro t u hn hd hz hne
    rcases Relation.ReflTransGen.cases_head hd with h | ⟨c, hc, hcu⟩
    · exact absurd h.symm hne
    · have hcz := z_of_mem_getChildren hc
      have hcu_z := Descends.z_le hcu
      have hcs : c ∈ (getChildren t).filter (fun c => c.z ≤ maxZoom) :=
        List.mem_filter.mpr ⟨hc, by simp only [decide_eq_true_eq]; omega⟩
      rw [getTileList_eq]
      by_cases heq : u = c
      · subst heq
        exact List.mem_append_left _ hcs
      · have hlt : c.z < maxZoom := by
          have := z_lt_of_descends_ne hcu heq
          omega
        refine List.mem_append_right _ (List.mem_flatMap.mpr ⟨c, hcs, ?_⟩)
        rw [if_pos hlt]
        exact ih c u (by omega) hcu hz heq

/-- Membership characterization of the pyramid enumeration: for a root whose
zoom does not exceed `maxZoom`, `getAllTiles` contains exactly the tiles
reachable by repeated subdivision whose zoom is at most `maxZoom`. -/
theorem mem_getAllTiles_iff {root u : Tile} {maxZoom : ℕ} (hroot : root.z ≤ maxZoom) :
    u ∈ getAllTiles root maxZoom ↔ Descends root u ∧ u.z ≤ maxZoom := by
  constructor
  · intro h
    rcases List.mem_cons.mp h with h | h
    · subst h
      exact ⟨Relation.ReflTransGen.refl, hroot⟩
    · exact ⟨descends_of_mem_getTileList_aux maxZoom (maxZoom - root.z) root u le_rfl h,
        (mem_getTileList_z h).2⟩
  · rintro ⟨hd, hz⟩
    by_cases he : u = root
    · subst he
      exact List.mem_cons_self _ _
    · exact List.mem_cons_of_mem _
        (mem_getTileList_of_descends_aux maxZoom (maxZoom - root.z) root u le_rfl hd hz he)

theorem nodup_getChildren (t : Tile) : (getChildren t).Nodup := by
  simp only [getChildren, List.nodup_cons, List.mem_cons, List.not_mem_nil, or_false,
    List.nodup_nil, and_true, true_and, not_false_eq_true, Tile.mk.injEq, not_or]
  omega

theorem nodup_getAllTiles_aux (maxZoom : ℕ) : ∀ n t, maxZoom - t.z ≤ n →
    (getAllTiles t maxZoom).Nodup := by
  intro n
  induction n with
  | zero =>
    intro t hn
    rw [getAllTiles, getTileList, show maxZoom - t.z = 0 from by omega]
    simp [getTileListAux]
  | succ n ih =>
    intro t hn
    rw [getAllTiles, List.nodup_cons]
    constructor
    · intro h
      exact absurd (mem_getTileList_z h).1 (by omega)
    · rw [getTileList_eq, List.nodup_append]
      refine ⟨(nodup_getChildren t).filter _, ?_, ?_⟩
      · rw [List.nodup_flatMap]
        constructor
        · intro c hc
          by_cases hlt : c.z < maxZoom
          · rw [if_pos hlt]
            have hcz := z_of_mem_getChildren (List.mem_of_mem_filter hc)
            have := ih c (by omega)
            rw [getAllTiles, List.nodup_cons] at this
            exact this.2
          · rw [if_neg hlt]
            exact List.nodup_nil
        · refine List.Pairwise.imp_of_mem ?_ ((nodup_getChildren t).filter _)
          intro c d hc hd hne u hu hv
          dsimp only at hu hv
          by_cases hcl : c.z < maxZoom
          · by_cases hdl : d.z < maxZoom
            · rw [if_pos hcl] at hu
              rw [if_pos hdl] at hv
              have h1 := descends_of_mem_getTileList_aux maxZoom (maxZoom - c.z) c u le_rfl hu
              have h2 := descends_of_mem_getTileList_aux maxZoom (maxZoom - d.z) d u le_rfl hv
              have hcz := z_of_mem_getChildren (List.mem_of_mem_filter hc)
              have hdz := z_of_mem_getChildren (List.mem_of_mem_filter hd)
              exact hne (descends_unique h1 h2 (by omega))
            · rw [if_neg hdl] at hv
              exact absurd hv (List.not_mem_nil u)
          · rw [if_neg hcl] at hu
            exact absurd hu (List.not_mem_nil u)
      · intro u hu hv
        have hz := z_of_mem_getChildren (List.mem_of_mem_filter hu)
        rw [List.mem_flatMap] at hv
        obtain ⟨c, hcmem, hcu⟩ := hv
        have hcz := z_of_mem_getChildren (List.mem_of_mem_filter hcmem)
        by_cases hlt : c.z < maxZoom
        · rw [if_pos hlt] at hcu
          have := (mem_getTileList_z hcu).1
          omega
        · rw [if_neg hlt] at hcu
          exact absurd hcu (List.not_mem_nil u)

theorem nodup_getAllTiles (t : Tile) (maxZoom : ℕ) : (getAllTiles t maxZoom).Nodup :=
  nodup_getAllTiles_aux maxZoom (maxZoom - t.z) t le_rfl

theorem valid_of_descends {a b : Tile} (h : Descends a b)
    (hx : a.x < 2 ^ a.z) (hy : a.y < 2 ^ a.z) : b.x < 2 ^ b.z ∧ b.y < 2 ^ b.z := by
  induction h with
  | refl => exact ⟨hx, hy⟩
  | tail _ hstep ih =>
    obtain ⟨ihx, ihy⟩ := ih
    simp only [IsChild, getChildren, List.mem_cons, List.not_mem_nil, or_false] at hstep
    rcases hstep with h | h | h | h <;> subst h <;> dsimp only <;>
      constructor <;> (rw [pow_succ]; omega)

/-- Lexicographic order on tiles: ascending zoom, then `x`, then `y` — the
order realized by the source comparator
`(a, b) => a[2] - b[2] then a[0] - b[0] then a[1] - b[1]`. -/
def tileLexLe (a b : Tile) : Prop :=
  a.z < b.z ∨ (a.z = b.z ∧ (a.x < b.x ∨ (a.x = b.x ∧ a.y ≤ b.y)))

instance (a b : Tile) : Decidable (tileLexLe a b) := by
  unfold tileLexLe
  infer_instance

/-- Embedding of the `children.sort(...)` call in
`generate-countour-tile-pyramid`.  The comparator is a total order that is
antisymmetric on the duplicate-free enumeration, so the sorted array is the
unique `tileLexLe`-sorted permutation of the input; `mergeSort` realizes it. -/
def sortTiles (l : List Tile) : List Tile :=
  l.mergeSort (fun a b => decide (tileLexLe a b))

theorem sortTiles_perm (l : List Tile) : (sortTiles l).Perm l :=
  List.mergeSort_perm l _

theorem sortTiles_sorted (l : List Tile) : (sortTiles l).Sorted tileLexLe := by
  have h := @List.sorted_mergeSort Tile (fun a b => decide (tileLexLe a b))
    (fun a b c h1 h2 => by
      simp only [decide_eq_true_eq] at h1 h2 ⊢
      unfold tileLexLe at h1 h2 ⊢
      omega)
    (fun a b => by
      simp only [Bool.or_eq_true, decide_eq_true_eq]
      unfold tileLexLe
      omega)
    l
  exact h.imp (by simp)

/-- C4: for every valid root tile and maxZoom, the pyramid enumeration
(`getAllTiles` followed by the sort) returns exactly the set of tiles
reachable by repeated quadtree subdivision from the root down to `maxZoom` —
including the root itself, with no duplicates and no coordinate outside
`[0, 2^z)` at its zoom — ordered ascending by zoom, then x, then y.  In
particular, for root `{z:9, x:272, y:179}` and `maxZoom = 11` it yields
exactly 21 tiles spanning zooms 9–11. -/
theorem claim_C4_pyramid_enumeration (root : Tile) (maxZoom : ℕ)
    (hz : root.z ≤ maxZoom) (hx : root.x < 2 ^ root.z) (hy : root.y < 2 ^ root.z) :
    (∀ u, u ∈ sortTiles (getAllTiles root maxZoom) ↔ Descends root u ∧ u.z ≤ maxZoom) ∧
    (sortTiles (getAllTiles root maxZoom)).Nodup ∧
    (∀ u ∈ sortTiles (getAllTiles root maxZoom), u.x < 2 ^ u.z ∧ u.y < 2 ^ u.z) ∧
    (sortTiles (getAllTiles root maxZoom)).Sorted tileLexLe ∧
    (sortTiles (getAllTiles (Tile.mk 272 179 9) 11)).length = 21 ∧
    (∀ u ∈ sortTiles (getAllTiles (Tile.mk 272 179 9) 11), 9 ≤ u.z ∧ u.z ≤ 11) := by
  refine ⟨?_, ?_, ?_, sortTiles_sorted _, ?_, ?_⟩
  · intro u
    rw [(sortTiles_perm _).mem_iff]
    exact mem_getAllTiles_iff hz
  · exact ((sortTiles_perm _).nodup_iff).mpr (nodup_getAllTiles root maxZoom)
  · intro u hu
    rw [(sortTiles_perm _).mem_iff, mem_getAllTiles_iff hz] at hu
    exact valid_of_descends hu.1 hx hy
  · rw [(sortTiles_perm _).length_eq]
    rfl
  · intro u hu
    rw [(sortTiles_perm _).mem_iff] at hu
    rcases List.mem_cons.mp hu with h | h
    · subst h
      exact ⟨by decide, by decide⟩
    · have h2 := mem_getTileList_z h
      dsimp only at h2
      exact ⟨by omega, h2.2⟩

theorem claim_C4_pyramid_enumeration_witness :
    ((9 : ℕ) ≤ 11 ∧ (272 : ℕ) < 2 ^ 9 ∧ (179 : ℕ) < 2 ^ 9) ∧
    ((∀ u, u ∈ sortTiles (getAllTiles (Tile.mk 272 179 9) 11) ↔
        Descends (Tile.mk 272 179 9) u ∧ u.z ≤ 11) ∧
      (sortTiles (getAllTiles (Tile.mk 272 179 9) 11)).Nodup ∧
      (∀ u ∈ sortTiles (getAllTiles (Tile.mk 272 179 9) 11),
        u.x < 2 ^ u.z ∧ u.y < 2 ^ u.z) ∧
      (sortTiles (getAllTiles (Tile.mk 272 179 9) 11)).Sorted tileLexLe ∧
      (sortTiles (getAllTiles (Tile.mk 272 179 9) 11)).length = 21 ∧
      (∀ u ∈ sortTiles (getAllTiles (Tile.mk 272 179 9) 11), 9 ≤ u.z ∧ u.z ≤ 11)) :=
  ⟨⟨by decide, by decide, by decide⟩,
    claim_C4_pyramid_enumeration (Tile.mk 272 179 9) 11 (by decide) (by decide) (by decide)⟩

/-! ### Contour options and the zoom-threshold table
(`mlcontour-adapter.ts` `getOptionsForZoom`, `generate-countour-tile-pyramid`
`contourOptions`) -/

/-- A thresholds object: zoom keys mapped to increment lists, in the source's
entry order (`Object.entries` of the literal object, whose integer-like keys
enumerate in ascending numeric order). -/
abbrev ThresholdTable := List (ℕ × List ℚ)

/-- The default threshold table in `contourOptions`
(`generate-countour-tile-pyramid`). -/
def defaultThresholds : ThresholdTable :=
  [(1, [600, 3000]), (4, [300, 1500]), (8, [150, 750]), (9, [80, 400]),
   (10, [40, 200]), (11, [20, 100]), (12, [10, 50]), (14, [5, 25]), (16, [1, 5])]

/-- The `levels`-determining part of `contourOptions`: a truthy (nonzero)
`--increment` yields the fixed list `[increment]`, otherwise the default
threshold table is used. -/
inductive ContourLevelSpec where
  | fixedLevels (levels : List ℚ)
  | thresholds (table : ThresholdTable)
deriving DecidableEq, Repr

def contourOptions (increment : ℚ) : ContourLevelSpec :=
  if increment = 0 then .thresholds defaultThresholds else .fixedLevels [increment]

/-- One iteration of the `Object.entries(thresholds).forEach` loop in
`getOptionsForZoom`: the accumulator holds the mutable `levels` and
`maxLessThanOrEqualTo` (with `none` standing for the initial `-Infinity`);
the entry is taken when its key is at most `zoom` and strictly above the
best key so far. -/
def thresholdStep (zoom : ℕ) (acc : List ℚ × Option ℕ) (kv : ℕ × List ℚ) :
    List ℚ × Option ℕ :=
  if decide (kv.1 ≤ zoom) && (match acc.2 with
      | none => true
      | some m => decide (m < kv.1)) then
    (kv.2, some kv.1)
  else acc

/-- Embedding of `getOptionsForZoom` (`mlcontour-adapter.ts`), restricted to
the `levels` field it computes from the thresholds; the other option fields
are copied through unchanged by the source. -/
def getOptionsForZoom (table : ThresholdTable) (zoom : ℕ) : List ℚ :=
  (table.foldl (thresholdStep zoom) ([], none)).1

theorem foldl_thresholdStep_of_all_gt {zoom : ℕ} :
    ∀ (table : ThresholdTable) (acc : List ℚ × Option ℕ),
      (∀ p ∈ table, zoom < p.1) → table.foldl (thresholdStep zoom) acc = acc := by
  intro table
  induction table with
  | nil => intro acc _; rfl
  | cons kv rest ih =>
    intro acc hgt
    rw [List.foldl_cons]
    have hk : zoom < kv.1 := hgt kv (List.mem_cons_self _ _)
    rw [show thresholdStep zoom acc kv = acc from ?_]
    · exact ih acc (fun p hp => hgt p (List.mem_cons_of_mem _ hp))
    · unfold thresholdStep
      rw [decide_eq_false (by omega), Bool.false_and, if_neg (by simp)]

theorem getOptionsForZoom_default_of_ge16 {zoom : ℕ} (h : 16 ≤ zoom) :
    getOptionsForZoom defaultThresholds zoom = [1, 5] := by
  unfold getOptionsForZoom defaultThresholds
  simp only [List.foldl_cons, List.foldl_nil]
  simp [thresholdStep,
    decide_eq_true (show (1 : ℕ) ≤ zoom by omega),
    decide_eq_true (show (4 : ℕ) ≤ zoom by omega),
    decide_eq_true (show (8 : ℕ) ≤ zoom by omega),
    decide_eq_true (show (9 : ℕ) ≤ zoom by omega),
    decide_eq_true (show (10 : ℕ) ≤ zoom by omega),
    decide_eq_true (show (11 : ℕ) ≤ zoom by omega),
    decide_eq_true (show (12 : ℕ) ≤ zoom by omega),
    decide_eq_true (show (14 : ℕ) ≤ zoom by omega),
    decide_eq_true (show (16 : ℕ) ≤ zoom by omega)]

/-- C5: with `increment = 0` the default threshold table is in effect, and
`getOptionsForZoom` selects the increment list of the largest registered zoom
key at most the requested zoom (an exact key match therefore wins, and the
highest key's value is used for every zoom above it); in particular zoom 10
resolves to `[40, 200]` and zoom 16 to `[1, 5]`. -/
theorem claim_C5_threshold_resolution :
    contourOptions 0 = .thresholds defaultThresholds ∧
    (∀ zoom k levels, (k, levels) ∈ defaultThresholds → k ≤ zoom →
      (∀ p ∈ defaultThresholds, p.1 ≤ zoom → p.1 ≤ k) →
      getOptionsForZoom defaultThresholds zoom = levels) ∧
    (∀ zoom, 16 ≤ zoom → getOptionsForZoom defaultThresholds zoom = [1, 5]) ∧
    getOptionsForZoom defaultThresholds 10 = [40, 200] ∧
    getOptionsForZoom defaultThresholds 16 = [1, 5] := by
  refine ⟨rfl, ?_, fun zoom h => getOptionsForZoom_default_of_ge16 h, by decide, by decide⟩
  intro zoom k levels hmem hk hmax
  have bound : ∀ k' : ℕ, (∃ l', (k', l') ∈ defaultThresholds) → ¬ k' ≤ k → ¬ k' ≤ zoom := by
    rintro k' ⟨l', hl'⟩ hgt hle2
    exact hgt (hmax (k', l') hl' hle2)
  simp only [defaultThresholds, List.mem_cons, List.not_mem_nil, or_false,
    Prod.mk.injEq] at hmem
  rcases hmem with hcase | hcase | hcase | hcase | hcase | hcase | hcase | hcase | hcase <;>
    obtain ⟨rfl, rfl⟩ := hcase
  · have h4 := bound 4 ⟨[300, 1500], by decide⟩ (by omega)
    have hz : zoom ≤ 3 := by omega
    interval_cases zoom <;> decide
  · have h8 := bound 8 ⟨[150, 750], by decide⟩ (by omega)
    have hz : zoom ≤ 7 := by omega
    interval_cases zoom <;> decide
  · have h9 := bound 9 ⟨[80, 400], by decide⟩ (by omega)
    have hz : zoom ≤ 8 := by omega
    interval_cases zoom <;> decide
  · have h10 := bound 10 ⟨[40, 200], by decide⟩ (by omega)
    have hz : zoom ≤ 9 := by omega
    interval_cases zoom <;> decide
  · have h11 := bound 11 ⟨[20, 100], by decide⟩ (by omega)
    have hz : zoom ≤ 10 := by omega
    interval_cases zoom <;> decide
  · have h12 := bound 12 ⟨[10, 50], by decide⟩ (by omega)
    have hz : zoom ≤ 11 := by omega
    interval_cases zoom <;> decide
  · have h14 := bound 14 ⟨[5, 25], by decide⟩ (by omega)
    have hz : zoom ≤ 13 := by omega
    interval_cases zoom <;> decide
  · have h16 := bound 16 ⟨[1, 5], by decide⟩ (by omega)
    have hz : zoom ≤ 15 := by omega
    interval_cases zoom <;> decide
  · exact getOptionsForZoom_default_of_ge16 hk

theorem claim_C5_threshold_resolution_witness :
    (((10 : ℕ), ([40, 200] : List ℚ)) ∈ defaultThresholds ∧ (10 : ℕ) ≤ 10 ∧
      (∀ p ∈ defaultThresholds, p.1 ≤ 10 → p.1 ≤ 10)) ∧
    getOptionsForZoom defaultThresholds 10 = [40, 200] :=
  ⟨⟨by decide, by decide, by decide⟩,
    claim_C5_threshold_resolution.2.1 10 10 [40, 200] (by decide) (by decide) (by decide)⟩

/-- C10: for every threshold table and every zoom strictly smaller than the
table's smallest key, `getOptionsForZoom` returns an empty `levels` list — in
particular zoom 0 under the default table. -/
theorem claim_C10_below_smallest_key :
    (∀ (table : ThresholdTable) (zoom : ℕ), (∀ p ∈ table, zoom < p.1) →
      getOptionsForZoom table zoom = []) ∧
    getOptionsForZoom defaultThresholds 0 = [] := by
  constructor
  · intro table zoom h
    unfold getOptionsForZoom
    rw [foldl_thresholdStep_of_all_gt table ([], none) h]
  · decide

theorem claim_C10_below_smallest_key_witness :
    (∀ p ∈ defaultThresholds, 0 < p.1) ∧ getOptionsForZoom defaultThresholds 0 = [] :=
  ⟨by decide, claim_C10_below_smallest_key.1 defaultThresholds 0 (by decide)⟩

/-! ### Blank tile synthesis and decoding (`mlcontour-adapter.ts`) -/

/-- The two supported DEM encodings. -/
inductive Encoding where
  | mapbox
  | terrarium
deriving DecidableEq, Repr

def TERRARIUM_MULT : ℚ := 256

def TERRARIUM_OFFSET : ℚ := 32768

def MAPBOX_INTERVAL_DEFAULT : ℚ := 1 / 10

def MAPBOX_OFFSET_DEFAULT : ℚ := -10000

/-- The clamped 24-bit channel value computed by `createBlankTileImage`
(`mlcontour-adapter.ts`): terrarium uses
`round((elevationValue + TERRARIUM_OFFSET) * TERRARIUM_MULT)`, mapbox uses
`round((elevationValue + MAPBOX_OFFSET_DEFAULT) * (1 / MAPBOX_INTERVAL_DEFAULT))`,
both clamped to `[0, 0xFFFFFF]` by `Math.max(0, Math.min(0xffffff, v))`. -/
def blankChannelValue (encoding : Encoding) (elevationValue : ℚ) : ℤ :=
  match encoding with
  | .terrarium => max 0 (min 0xffffff (round ((elevationValue + TERRARIUM_OFFSET) * TERRARIUM_MULT)))
  | .mapbox => max 0 (min 0xffffff
      (round ((elevationValue + MAPBOX_OFFSET_DEFAULT) * (1 / MAPBOX_INTERVAL_DEFAULT))))

/-- Byte splitting in `createBlankTileImage`:
`r = (v >> 16) & 0xff`, `g = (v >> 8) & 0xff`, `b = v & 0xff`. -/
def channelBytes (v : ℤ) : ℕ × ℕ × ℕ :=
  ((v.toNat >>> 16) &&& 0xff, (v.toNat >>> 8) &&& 0xff, v.toNat &&& 0xff)

/-- Embedding of `createBlankTileImage` at the pixel level: the filling loop
writes the identical `(r, g, b)` triple into every one of the
`width * height` pixels.  The subsequent image-format encoding of this pixel
grid is delegated to the external codec (`sharp`). -/
def createBlankTileImage (width height : ℕ) (elevationValue : ℚ) (encoding : Encoding) :
    List (ℕ × ℕ × ℕ) :=
  List.replicate (width * height) (channelBytes (blankChannelValue encoding elevationValue))

/-- The channel value prescribed by the claim and by §4.3 of the spec for the
mapbox encoding: `round((elevation - (-10000)) / 0.1)`, clamped to
`[0, 0xFFFFFF]`.  Stated from the spec's words for comparison with the
source's `blankChannelValue`. -/
def specMapboxChannelValue (elevationValue : ℚ) : ℤ :=
  max 0 (min 0xffffff (round ((elevationValue - MAPBOX_OFFSET_DEFAULT) / MAPBOX_INTERVAL_DEFAULT)))

/-- Modelled from the spec: per-pixel decoding of the external Image Codec
path (`GetImageData` delegates to `mlcontour.decodeParsedImage`, an external
collaborator, §1/§6).  It inverts the §4.3 channel encodings: terrarium
`(r * 256 + g + b / 256) - 32768`, mapbox
`-10000 + (r * 65536 + g * 256 + b) * 0.1` — the decodings whose quantization
steps §8 records as 1/256 m and 0.1 m. -/
def decodeElevation (encoding : Encoding) (rgb : ℕ × ℕ × ℕ) : ℚ :=
  match encoding with
  | .terrarium => ((rgb.1 : ℚ) * 256 + (rgb.2.1 : ℚ) + (rgb.2.2 : ℚ) / 256) - 32768
  | .mapbox => -10000 + ((rgb.1 : ℚ) * 65536 + (rgb.2.1 : ℚ) * 256 + (rgb.2.2 : ℚ)) * (1 / 10)

theorem blankChannelValue_mapbox_zero : blankChannelValue .mapbox 0 = 0 := by
  unfold blankChannelValue MAPBOX_OFFSET_DEFAULT MAPBOX_INTERVAL_DEFAULT
  norm_num [round_eq]

theorem specMapboxChannelValue_zero : specMapboxChannelValue 0 = 100000 := by
  unfold specMapboxChannelValue MAPBOX_OFFSET_DEFAULT MAPBOX_INTERVAL_DEFAULT
  norm_num [round_eq]

/-- C1 (code bug): at elevation 0 with mapbox encoding, the source computes
`round((0 + (-10000)) / 0.1) = -100000`, clamps it to channel value 0 and
writes bytes `(0, 0, 0)`, whereas the claim's formula
`round((0 - (-10000)) / 0.1)` gives 100000.  The two disagree, so the claimed
equality fails; the spec formula is the one consistent with the decoder the
file itself feeds (`decodeParsedImage`), see C7. -/
theorem claim_C1_mapbox_channel_bug :
    blankChannelValue .mapbox 0 = 0 ∧
    specMapboxChannelValue 0 = 100000 ∧
    blankChannelValue .mapbox 0 ≠ specMapboxChannelValue 0 ∧
    channelBytes (blankChannelValue .mapbox 0) = (0, 0, 0) ∧
    createBlankTileImage 1 1 0 .mapbox = [(0, 0, 0)] := by
  refine ⟨blankChannelValue_mapbox_zero, specMapboxChannelValue_zero, ?_, ?_, ?_⟩
  · rw [blankChannelValue_mapbox_zero, specMapboxChannelValue_zero]
    decide
  · rw [blankChannelValue_mapbox_zero]
    decide
  · unfold createBlankTileImage
    rw [blankChannelValue_mapbox_zero]
    decide

/-- C7 (code bug): the mapbox blank-tile round trip does not recover the
elevation.  At elevation 0 the synthesized pixel decodes to −10000 m, an
error far beyond the 0.1 m quantization step; the terrarium branch, by
contrast, does round-trip (see `terrarium_roundtrip_ok`). -/
theorem claim_C7_mapbox_roundtrip_bug :
    decodeElevation .mapbox (channelBytes (blankChannelValue .mapbox 0)) = -10000 ∧
    ¬ |decodeElevation .mapbox (channelBytes (blankChannelValue .mapbox 0)) - 0| ≤ 1 / 10 := by
  rw [blankChannelValue_mapbox_zero, show channelBytes 0 = (0, 0, 0) from by decide]
  constructor
  · norm_num [decodeElevation]
  · norm_num [decodeElevation]

/-! ### Work Scheduler (`entry-point.ts`, `processTilesInParallel`) -/

/-- Bookkeeping state of `processTilesInParallel`: `idx` is `currentIndex`
(the number of tasks started so far), `active` is `activeWorkers.length`, and
`settled` is the state of the returned promise (`none` = pending,
`some true` = resolved, `some false` = rejected; a settled promise never
changes again). -/
structure SchedState where
  idx : ℕ
  active : ℕ
  settled : Option Bool
deriving DecidableEq, Repr

/-- The `while (currentIndex < totalTiles && activeWorkers.length < maxProcesses)`
loop body of `scheduleNextTile`: each iteration starts one task, incrementing
`currentIndex` and pushing one promise onto `activeWorkers`.  The loop runs at
most `total - idx` further iterations, which is passed as structural fuel. -/
def startLoopAux (total maxProcesses : ℕ) : ℕ → SchedState → SchedState
  | 0, s => s
  | fuel + 1, s =>
    if s.idx < total ∧ s.active < maxProcesses then
      startLoopAux total maxProcesses fuel ⟨s.idx + 1, s.active + 1, s.settled⟩
    else s

def startLoop (total maxProcesses : ℕ) (s : SchedState) : SchedState :=
  startLoopAux total maxProcesses (total - s.idx) s

/-- Settling a pending promise as resolved (`resolve()` is a no-op on an
already settled promise). -/
def resolvePromise (s : SchedState) : SchedState :=
  match s.settled with
  | none => ⟨s.idx, s.active, some true⟩
  | some _ => s

/-- Settling a pending promise as rejected (`reject(error)` is a no-op on an
already settled promise). -/
def rejectPromise (s : SchedState) : SchedState :=
  match s.settled with
  | none => ⟨s.idx, s.active, some false⟩
  | some _ => s

/-- Embedding of `scheduleNextTile`: resolve when all tasks are assigned and
no workers remain active, otherwise run the start-loop. -/
def scheduleNextTile (total maxProcesses : ℕ) (s : SchedState) : SchedState :=
  if total ≤ s.idx ∧ s.active = 0 then resolvePromise s
  else startLoop total maxProcesses s

/-- A task settling (the worker promise's handlers): on failure the `.catch`
handler rejects the outer promise; the `.finally` handler removes the worker
from `activeWorkers` and calls `scheduleNextTile` again. -/
def taskSettled (total maxProcesses : ℕ) (failed : Bool) (s : SchedState) : SchedState :=
  let s1 := if failed then rejectPromise s else s
  scheduleNextTile total maxProcesses ⟨s1.idx, s1.active - 1, s1.settled⟩

/-- Initial state of `processTilesInParallel`: the constructor calls
`scheduleNextTile()` once with no tasks assigned and no active workers.
(The `totalTiles === 0` early return coincides with the `total = 0` case.) -/
def schedInit (total maxProcesses : ℕ) : SchedState :=
  scheduleNextTile total maxProcesses ⟨0, 0, none⟩

/-- One event of the single-threaded run: some in-flight task settles
(successfully or not). -/
inductive SchedStep (total maxProcesses : ℕ) : SchedState → SchedState → Prop
  | settle (failed : Bool) (s : SchedState) (h : 1 ≤ s.active) :
      SchedStep total maxProcesses s (taskSettled total maxProcesses failed s)

/-- States reachable in a run of the scheduler. -/
def SchedReachable (total maxProcesses : ℕ) (s : SchedState) : Prop :=
  Relation.ReflTransGen (SchedStep total maxProcesses) (schedInit total maxProcesses) s

theorem startLoopAux_settled (total maxProcesses : ℕ) :
    ∀ fuel s, (startLoopAux total maxProcesses fuel s).settled = s.settled := by
  intro fuel
  induction fuel with
  | zero => intro s; rfl
  | succ f ih =>
    intro s
    unfold startLoopAux
    by_cases h : s.idx < total ∧ s.active < maxProcesses
    · rw [if_pos h, ih]
    · rw [if_neg h]

theorem startLoopAux_bounds (total maxProcesses : ℕ) :
    ∀ fuel s, s.active ≤ maxProcesses → s.idx ≤ total →
      (startLoopAux total maxProcesses fuel s).active ≤ maxProcesses ∧
      (startLoopAux total maxProcesses fuel s).idx ≤ total := by
  intro fuel
  induction fuel with
  | zero => intro s h1 h2; exact ⟨h1, h2⟩
  | succ f ih =>
    intro s h1 h2
    unfold startLoopAux
    by_cases h : s.idx < total ∧ s.active < maxProcesses
    · rw [if_pos h]
      exact ih ⟨s.idx + 1, s.active + 1, s.settled⟩ (by dsimp only; omega) (by dsimp only; omega)
    · rw [if_neg h]
      exact ⟨h1, h2⟩

/-- The scheduler invariant: the in-flight count never exceeds the limit, the
cursor never runs past the task list, and a resolved promise means the cursor
was exhausted with no in-flight tasks (so all `total` started tasks are in a
terminal state). -/
def SchedInv (total maxProcesses : ℕ) (s : SchedState) : Prop :=
  s.active ≤ maxProcesses ∧ s.idx ≤ total ∧
    (s.settled = some true → s.idx = total ∧ s.active = 0)

theorem schedInv_scheduleNextTile (total maxProcesses : ℕ) :
    ∀ s : SchedState, s.active ≤ maxProcesses → s.idx ≤ total →
      (s.settled = some true → s.idx = total ∧ s.active = 0) →
      SchedInv total maxProcesses (scheduleNextTile total maxProcesses s) := by
  rintro ⟨i, a, st⟩ h1 h2 h3
  dsimp only at h1 h2 h3
  unfold scheduleNextTile
  dsimp only
  by_cases h : total ≤ i ∧ a = 0
  · rw [if_pos h]
    cases st with
    | none => exact ⟨h1, h2, fun _ => ⟨show i = total by omega, h.2⟩⟩
    | some b => exact ⟨h1, h2, h3⟩
  · rw [if_neg h]
    have hb := startLoopAux_bounds total maxProcesses (total - i) ⟨i, a, st⟩ h1 h2
    have hs := startLoopAux_settled total maxProcesses (total - i) ⟨i, a, st⟩
    refine ⟨hb.1, hb.2, fun hh => ?_⟩
    rw [startLoop] at hh ⊢
    rw [hs] at hh
    obtain ⟨hi, ha⟩ := h3 hh
    exact absurd (And.intro (by omega) ha) h

theorem schedInv_init (total maxProcesses : ℕ) :
    SchedInv total maxProcesses (schedInit total maxProcesses) :=
  schedInv_scheduleNextTile total maxProcesses ⟨0, 0, none⟩ (Nat.zero_le _) (Nat.zero_le _)
    (fun h => Option.noConfusion h)

theorem schedInv_step (total maxProcesses : ℕ) (s sNext : SchedState)
    (hinv : SchedInv total maxProcesses s)
    (hstep : SchedStep total maxProcesses s sNext) :
    SchedInv total maxProcesses sNext := by
  obtain ⟨h1, h2, h3⟩ := hinv
  cases hstep with
  | settle failed s hact =>
    obtain ⟨i, a, st⟩ := s
    dsimp only at h1 h2 h3 hact
    cases failed with
    | false =>
      show SchedInv total maxProcesses (scheduleNextTile total maxProcesses ⟨i, a - 1, st⟩)
      exact schedInv_scheduleNextTile total maxProcesses ⟨i, a - 1, st⟩
        (by dsimp only; omega) h2
        (fun hh => absurd (h3 hh).2 (by omega))
    | true =>
      cases st with
      | none =>
        show SchedInv total maxProcesses
          (scheduleNextTile total maxProcesses ⟨i, a - 1, some false⟩)
        exact schedInv_scheduleNextTile total maxProcesses ⟨i, a - 1, some false⟩
          (by dsimp only; omega) h2
          (fun hh => by simp at hh)
      | some b =>
        show SchedInv total maxProcesses
          (scheduleNextTile total maxProcesses ⟨i, a - 1, some b⟩)
        exact schedInv_scheduleNextTile total maxProcesses ⟨i, a - 1, some b⟩
          (by dsimp only; omega) h2
          (fun hh => absurd (h3 hh).2 (by omega))

theorem schedInv_reachable (total maxProcesses : ℕ) (s : SchedState)
    (h : SchedReachable total maxProcesses s) : SchedInv total maxProcesses s := by
  induction h with
  | refl => exact schedInv_init total maxProcesses
  | tail _ hstep ih => exact schedInv_step total maxProcesses _ _ ih hstep

theorem scheduleNextTile_settled_false (total maxProcesses i a : ℕ) :
    (scheduleNextTile total maxProcesses ⟨i, a, some false⟩).settled = some false := by
  unfold scheduleNextTile
  dsimp only
  by_cases h : total ≤ i ∧ a = 0
  · rw [if_pos h]
    rfl
  · rw [if_neg h]
    rw [startLoop]
    exact startLoopAux_settled total maxProcesses _ ⟨i, a, some false⟩

theorem taskSettled_fail_rejects (total maxProcesses : ℕ) (s : SchedState)
    (h : s.settled = none) :
    (taskSettled total maxProcesses true s).settled = some false := by
  obtain ⟨i, a, st⟩ := s
  dsimp only at h
  subst h
  show (scheduleNextTile total maxProcesses ⟨i, a - 1, some false⟩).settled = some false
  exact scheduleNextTile_settled_false total maxProcesses i (a - 1)

theorem settled_false_taskSettled (total maxProcesses : ℕ) (failed : Bool) (s : SchedState)
    (h : s.settled = some false) :
    (taskSettled total maxProcesses failed s).settled = some false := by
  obtain ⟨i, a, st⟩ := s
  dsimp only at h
  subst h
  cases failed with
  | false =>
    show (scheduleNextTile total maxProcesses ⟨i, a - 1, some false⟩).settled = some false
    exact scheduleNextTile_settled_false total maxProcesses i (a - 1)
  | true =>
    show (scheduleNextTile total maxProcesses ⟨i, a - 1, some false⟩).settled = some false
    exact scheduleNextTile_settled_false total maxProcesses i (a - 1)

/-- C2: along every reachable state of a `processTilesInParallel` run, the
number of in-flight tasks never exceeds the configured limit, and the
returned promise is resolved only once the task cursor is exhausted
(`idx = total`) with an empty in-flight set — so every one of the `total`
started tasks has reached a terminal state. -/
theorem claim_C2_scheduler_invariant (total maxProcesses : ℕ) (s : SchedState)
    (h : SchedReachable total maxProcesses s) :
    s.active ≤ maxProcesses ∧
    (s.settled = some true → s.idx = total ∧ s.active = 0) := by
  have hinv := schedInv_reachable total maxProcesses s h
  exact ⟨hinv.1, hinv.2.2⟩

theorem claim_C2_scheduler_invariant_witness :
    SchedReachable 2 1 (schedInit 2 1) ∧
    ((schedInit 2 1).active ≤ 1 ∧
      ((schedInit 2 1).settled = some true →
        (schedInit 2 1).idx = 2 ∧ (schedInit 2 1).active = 0)) :=
  ⟨Relation.ReflTransGen.refl, claim_C2_scheduler_invariant 2 1 _ Relation.ReflTransGen.refl⟩

/-- C3 counterexample: with three tasks and concurrency limit 1, the first
task's failure settles the promise as rejected with the cursor at 2 (the
failure event itself launches a replacement task), and the subsequent
successful completion of that still-running task starts yet another task —
the cursor advances from 2 to 3 in a step taken from an already-rejected
state.  This refutes "after the first task failure no new tasks are ever
started". -/
theorem claim_C3_counterexample :
    SchedReachable 3 1 (taskSettled 3 1 true (schedInit 3 1)) ∧
    (taskSettled 3 1 true (schedInit 3 1)).settled = some false ∧
    (taskSettled 3 1 true (schedInit 3 1)).idx = 2 ∧
    SchedStep 3 1 (taskSettled 3 1 true (schedInit 3 1))
      (taskSettled 3 1 false (taskSettled 3 1 true (schedInit 3 1))) ∧
    (taskSettled 3 1 false (taskSettled 3 1 true (schedInit 3 1))).idx = 3 := by
  refine ⟨?_, by decide, by decide, ?_, by decide⟩
  · exact Relation.ReflTransGen.single (SchedStep.settle true _ (by decide))
  · exact SchedStep.settle false _ (by decide)

/-- C3 amended: a task failure while the promise is pending settles it as
rejected (fail-fast propagation for the whole batch), the rejection is
permanent under all further events (the run never resolves afterwards), and
already-running tasks are allowed to finish; however — contrary to the
original claim — the scheduler continues to start new tasks after the first
failure, as the concrete run in the last conjunct exhibits. -/
theorem claim_C3_failfast_amended :
    (∀ (total maxProcesses : ℕ) (s : SchedState), s.settled = none →
      (taskSettled total maxProcesses true s).settled = some false) ∧
    (∀ (total maxProcesses : ℕ) (s sNext : SchedState),
      SchedStep total maxProcesses s sNext → s.settled = some false →
      sNext.settled = some false) ∧
    ((taskSettled 3 1 true (schedInit 3 1)).settled = some false ∧
      (taskSettled 3 1 false (taskSettled 3 1 true (schedInit 3 1))).idx =
        (taskSettled 3 1 true (schedInit 3 1)).idx + 1) := by
  refine ⟨taskSettled_fail_rejects, ?_, by decide, by decide⟩
  intro total maxProcesses s sNext hstep hs
  cases hstep with
  | settle failed s hact => exact settled_false_taskSettled total maxProcesses failed s hs

theorem claim_C3_failfast_amended_witness :
    (schedInit 2 1).settled = none ∧
    (taskSettled 2 1 true (schedInit 2 1)).settled = some false :=
  ⟨by decide, claim_C3_failfast_amended.1 2 1 (schedInit 2 1) (by decide)⟩

/-! ### MBTiles adapter (`mbtiles-adapter.ts`, `getMBTilesTile`) -/

/-- The row a tile-database lookup can hand back: optional raw bytes plus the
optional content type from the stored per-tile headers
(`tileData.headers?.contentType`). -/
structure TileRow where
  data : Option (List ℕ)
  contentType : Option String
deriving DecidableEq, Repr

/-- Outcome of the underlying driver call `mbtilesHandle.getTile(z, x, y, cb)`:
either the callback receives an error with a message, or it receives a
(possibly missing) tile row.  The driver is external; `getMBTilesTile` is
verified against every possible outcome. -/
inductive GetTileOutcome where
  | failure (msg : String)
  | success (row : Option TileRow)
deriving DecidableEq, Repr

/-- JavaScript `String.prototype.includes`: the pattern occurs as a
contiguous substring. -/
def strIncludes (hay sub : String) : Bool :=
  decide (List.IsInfix sub.toList hay.toList)

/-- Fetch result of the adapter:
`{data: Buffer | undefined, contentType: string | undefined}`. -/
structure FetchResult where
  data : Option (List ℕ)
  contentType : Option String
deriving DecidableEq, Repr

/-- Embedding of `getMBTilesTile` (`mbtiles-adapter.ts`): a driver error whose
message includes "Tile does not exist" or "no such row" resolves to the
absent result; any other driver error is re-raised; a missing or empty row
resolves to the absent result; otherwise bytes and stored content type are
returned. -/
def getMBTilesTile (outcome : GetTileOutcome) : Except String FetchResult :=
  match outcome with
  | .failure msg =>
    if strIncludes msg "Tile does not exist" || strIncludes msg "no such row" then
      .ok ⟨none, none⟩
    else
      .error msg
  | .success none => .ok ⟨none, none⟩
  | .success (some row) =>
    match row.data with
    | none => .ok ⟨none, none⟩
    | some d => .ok ⟨some d, row.contentType⟩

/-- The driver outcomes that mean "this coordinate is absent from the tile
database": the tile-not-present error conditions the adapter recognizes, or a
lookup that produced no row / no bytes. -/
def tileAbsentOutcome (outcome : GetTileOutcome) : Bool :=
  match outcome with
  | .failure msg =>
    strIncludes msg "Tile does not exist" || strIncludes msg "no such row"
  | .success none => true
  | .success (some row) => row.data.isNone

/-- C6: for every coordinate absent from a tile-database backend — whatever
driver outcome signals it — `getMBTilesTile` returns
`{data: undefined, contentType: undefined}` and never raises; it raises only
on a driver error other than the tile-not-present conditions, re-raising that
error's message. -/
theorem claim_C6_mbtiles_absent (outcome : GetTileOutcome) :
    (tileAbsentOutcome outcome = true →
      getMBTilesTile outcome = .ok ⟨none, none⟩) ∧
    (∀ e, getMBTilesTile outcome = .error e →
      tileAbsentOutcome outcome = false ∧ outcome = .failure e) := by
  constructor
  · intro habs
    cases outcome with
    | failure msg =>
      simp only [tileAbsentOutcome] at habs
      simp only [getMBTilesTile, habs, if_true]
    | success row =>
      cases row with
      | none => rfl
      | some r =>
        simp only [tileAbsentOutcome, Option.isNone_iff_eq_none] at habs
        simp only [getMBTilesTile, habs]
  · intro e herr
    cases outcome with
    | failure msg =>
      simp only [getMBTilesTile] at herr
      by_cases hm : strIncludes msg "Tile does not exist" || strIncludes msg "no such row"
      · rw [if_pos hm] at herr
        exact absurd herr (by simp)
      · rw [if_neg hm] at herr
        simp only [Except.error.injEq] at herr
        subst herr
        refine ⟨?_, rfl⟩
        simp only [tileAbsentOutcome]
        exact Bool.of_not_eq_true hm
    | success row =>
      cases row with
      | none => exact absurd herr (by simp [getMBTilesTile])
      | some r =>
        simp only [getMBTilesTile] at herr
        cases hd : r.data with
        | none =>
          rw [hd] at herr
          exact absurd herr (by simp)
        | some d =>
          rw [hd] at herr
          exact absurd herr (by simp)

theorem claim_C6_mbtiles_absent_witness :
    (tileAbsentOutcome (.failure "Tile does not exist: 9/272/179") = true) ∧
    getMBTilesTile (.failure "Tile does not exist: 9/272/179") = .ok ⟨none, none⟩ :=
  ⟨by decide,
    (claim_C6_mbtiles_absent (.failure "Tile does not exist: 9/272/179")).1 (by decide)⟩

/-! ### Per-tile processing and idempotent skip
(`generate-countour-tile-pyramid`, `processTile` / `processQueue`) -/

/-- Node `path.join` for the plain relative segments the source passes
(no separators or dots inside a segment, so joining is concatenation). -/
def pathJoin (a b : String) : String := a ++ "/" ++ b

/-- The destination path `path.join(outputDir, z, x, y + ".pbf")` built by
`processTile` (recall `z = v[2]`, `x = v[0]`, `y = v[1]`). -/
def tileFilePath (outputDir : String) (t : Tile) : String :=
  pathJoin (pathJoin (pathJoin outputDir (toString t.z)) (toString t.x))
    (toString t.y ++ ".pbf")

/-- Observable side effects of processing one tile: how many times the
contour pipeline (`manager.fetchContourTile`, which performs the DEM fetch
and the Contour Engine invocation) ran, and how many files were written. -/
structure TileEffects where
  fetchContour : ℕ
  writes : ℕ
deriving DecidableEq, Repr

instance : Add TileEffects :=
  ⟨fun a b => ⟨a.fetchContour + b.fetchContour, a.writes + b.writes⟩⟩

/-- Embedding of `processTile` (`generate-countour-tile-pyramid`) over an
explicit file-system state (the set of existing output paths) and an oracle
`engine` for the external `manager.fetchContourTile` call: if the destination
file already exists the tile is skipped outright; otherwise the pipeline runs
and, on success, the tile is written (`mkdir` + `writeFileSync`), while an
error is logged and the tile is skipped without failing the job. -/
def processTile (engine : Tile → Except String (List ℕ)) (outputDir : String)
    (fs : List String) (t : Tile) : List String × TileEffects :=
  if tileFilePath outputDir t ∈ fs then (fs, ⟨0, 0⟩)
  else
    match engine t with
    | .ok _ => (tileFilePath outputDir t :: fs, ⟨1, 1⟩)
    | .error _ => (fs, ⟨1, 0⟩)

/-- Embedding of `processQueue`: the tiles of the pyramid are processed in
batches, each batch awaited before the next.  State-wise this is a traversal
of the queue threading the file-system state; the within-batch concurrency is
irrelevant to the properties below, because a run over an already-populated
directory touches nothing and distinct tiles use distinct paths. -/
def processQueue (engine : Tile → Except String (List ℕ)) (outputDir : String)
    (fs : List String) (queue : List Tile) : List String × TileEffects :=
  queue.foldl
    (fun acc t =>
      let r := processTile engine outputDir acc.1 t
      (r.1, acc.2 + r.2))
    (fs, ⟨0, 0⟩)

theorem processTile_skip (engine : Tile → Except String (List ℕ)) (outputDir : String)
    (fs : List String) (t : Tile) (h : tileFilePath outputDir t ∈ fs) :
    processTile engine outputDir fs t = (fs, ⟨0, 0⟩) := by
  unfold processTile
  rw [if_pos h]

theorem processTile_mono (engine : Tile → Except String (List ℕ)) (outputDir : String)
    (fs : List String) (t : Tile) :
    ∀ p ∈ fs, p ∈ (processTile engine outputDir fs t).1 := by
  intro p hp
  unfold processTile
  by_cases h : tileFilePath outputDir t ∈ fs
  · rw [if_pos h]
    exact hp
  · rw [if_neg h]
    cases engine t with
    | ok d => exact List.mem_cons_of_mem _ hp
    | error e => exact hp

theorem processTile_writes_ok (engine : Tile → Except String (List ℕ)) (outputDir : String)
    (fs : List String) (t : Tile) (hok : (engine t).isOk = true) :
    tileFilePath outputDir t ∈ (processTile engine outputDir fs t).1 := by
  unfold processTile
  by_cases h : tileFilePath outputDir t ∈ fs
  · rw [if_pos h]
    exact h
  · rw [if_neg h]
    cases he : engine t with
    | ok d => exact List.mem_cons_self _ _
    | error e =>
      rw [he] at hok
      exact absurd hok (by simp [Except.isOk, Except.toBool])

theorem processQueue_populated (engine : Tile → Except String (List ℕ)) (outputDir : String) :
    ∀ (queue : List Tile) (fs : List String),
      (∀ t ∈ queue, tileFilePath outputDir t ∈ fs) →
      processQueue engine outputDir fs queue = (fs, ⟨0, 0⟩) := by
  intro queue
  induction queue with
  | nil => intro fs _; rfl
  | cons t rest ih =>
    intro fs hall
    unfold processQueue
    rw [List.foldl_cons]
    rw [processTile_skip engine outputDir fs t (hall t (List.mem_cons_self _ _))]
    have hrest := ih fs (fun u hu => hall u (List.mem_cons_of_mem _ hu))
    unfold processQueue at hrest
    show List.foldl _ ((fs, (⟨0, 0⟩ : TileEffects)).1,
      (fs, (⟨0, 0⟩ : TileEffects)).2 + (⟨0, 0⟩ : TileEffects)) rest = (fs, ⟨0, 0⟩)
    have : (fs, (⟨0, 0⟩ : TileEffects)).2 + (⟨0, 0⟩ : TileEffects) = (⟨0, 0⟩ : TileEffects) := rfl
    rw [this]
    exact hrest

theorem processQueue_mono (engine : Tile → Except String (List ℕ)) (outputDir : String) :
    ∀ (queue : List Tile) (fs : List String) (acc : TileEffects) (p : String), p ∈ fs →
      p ∈ (queue.foldl
        (fun acc t =>
          let r := processTile engine outputDir acc.1 t
          (r.1, acc.2 + r.2)) (fs, acc)).1 := by
  intro queue
  induction queue with
  | nil => intro fs acc p hp; exact hp
  | cons t rest ih =>
    intro fs acc p hp
    rw [List.foldl_cons]
    exact ih _ _ p (processTile_mono engine outputDir fs t p hp)

theorem processQueue_populates (engine : Tile → Except String (List ℕ)) (outputDir : String)
    (hok : ∀ t, (engine t).isOk = true) :
    ∀ (queue : List Tile) (fs : List String) (acc : TileEffects) (t : Tile), t ∈ queue →
      tileFilePath outputDir t ∈ (queue.foldl
        (fun acc t =>
          let r := processTile engine outputDir acc.1 t
          (r.1, acc.2 + r.2)) (fs, acc)).1 := by
  intro queue
  induction queue with
  | nil => intro fs acc t ht; exact absurd ht (List.not_mem_nil t)
  | cons u rest ih =>
    intro fs acc t ht
    rw [List.foldl_cons]
    rcases List.mem_cons.mp ht with h | h
    · subst h
      exact processQueue_mono engine outputDir rest _ _ _
        (processTile_writes_ok engine outputDir fs t (hok t))
    · exact ih _ _ t h

/-- C8: if the destination file `outputDir/z/x/y.pbf` for a tile already
exists, `processTile` skips the tile entirely — no DEM fetch, no Contour
Engine invocation, no write, and an unchanged file system; consequently a
pyramid job over an output directory in which every destination already
exists changes nothing, and running the same (everywhere-succeeding) job a
second time after a first run is such a no-op. -/
theorem claim_C8_idempotent_skip :
    (∀ (engine : Tile → Except String (List ℕ)) (outputDir : String)
      (fs : List String) (t : Tile), tileFilePath outputDir t ∈ fs →
      processTile engine outputDir fs t = (fs, ⟨0, 0⟩)) ∧
    (∀ (engine : Tile → Except String (List ℕ)) (outputDir : String)
      (fs : List String) (queue : List Tile),
      (∀ t ∈ queue, tileFilePath outputDir t ∈ fs) →
      processQueue engine outputDir fs queue = (fs, ⟨0, 0⟩)) ∧
    (∀ (engine : Tile → Except String (List ℕ)) (outputDir : String)
      (fs : List String) (queue : List Tile), (∀ t, (engine t).isOk = true) →
      processQueue engine outputDir
        (processQueue engine outputDir fs queue).1 queue =
        ((processQueue engine outputDir fs queue).1, ⟨0, 0⟩)) := by
  refine ⟨processTile_skip, fun engine outputDir fs queue h =>
    processQueue_populated engine outputDir queue fs h, ?_⟩
  intro engine outputDir fs queue hok
  exact processQueue_populated engine outputDir queue _
    (fun t ht => processQueue_populates engine outputDir hok queue fs ⟨0, 0⟩ t ht)

theorem claim_C8_idempotent_skip_witness :
    tileFilePath "out" ⟨2, 3, 1⟩ ∈ ["out/1/2/3.pbf"] ∧
    processTile (fun _ => .ok []) "out" ["out/1/2/3.pbf"] ⟨2, 3, 1⟩ =
      (["out/1/2/3.pbf"], ⟨0, 0⟩) :=
  ⟨by decide,
    claim_C8_idempotent_skip.1 (fun _ => .ok []) "out" ["out/1/2/3.pbf"] ⟨2, 3, 1⟩ (by decide)⟩

/-! ### Run manifest (`entry-point.ts`, `createMetadata`) -/

/-- One entry of the `vector_layers` array embedded (JSON-serialized) in the
metadata's `json` field. -/
structure VectorLayer where
  id : String
  fields : List (String × String)
  minzoom : ℕ
  maxzoom : ℕ
deriving DecidableEq, Repr

/-- The metadata object `createMetadata` serializes into `metadata.json`. -/
structure Metadata where
  name : String
  type : String
  description : String
  version : String
  format : String
  minzoom : String
  maxzoom : String
  vectorLayers : List VectorLayer
  bounds : String
deriving DecidableEq, Repr

/-- Embedding of `createMetadata` (`entry-point.ts`) as the list of file
writes it performs: a single `writeFileSync` of the metadata object to
`path.join(outputDir, "metadata.json")`.  The `description` timestamp
(`new Date().toISOString()`) is passed in as a parameter. -/
def createMetadata (outputDir : String) (outputMinZoom outputMaxZoom : ℕ)
    (timestamp : String) : List (String × Metadata) :=
  [(pathJoin outputDir "metadata.json",
    { name := "Contour_z" ++ toString outputMinZoom ++ "_Z" ++ toString outputMaxZoom
      type := "baselayer"
      description := timestamp
      version := "1"
      format := "pbf"
      minzoom := toString outputMinZoom
      maxzoom := toString outputMaxZoom
      vectorLayers := [⟨"contours", [("ele", "Number"), ("level", "Number")],
        outputMinZoom, outputMaxZoom⟩]
      bounds := "-180.000000,-85.051129,180.000000,85.051129" })]

/-- C9 counterexample: the bounds string the source writes is
`-180.000000,-85.051129,180.000000,85.051129`, not the claimed
`-180,-85.051129,180,85.051129` — at a concrete invocation the written
metadata's bounds differ from the claim's string. -/
theorem claim_C9_counterexample :
    (createMetadata "./output" 5 8 "2024-01-01T00:00:00.000Z").map (fun w => w.2.bounds) ≠
      ["-180,-85.051129,180,85.051129"] := by
  decide

/-- C9 amended: every invocation of `createMetadata` performs exactly one
write, to `outputDir/metadata.json`, whose metadata has type `baselayer`,
format `pbf`, the configured minzoom and maxzoom, a layer descriptor named
`contours` with fields `ele: Number` and `level: Number`, and the fixed world
bounds string `-180.000000,-85.051129,180.000000,85.051129`. -/
theorem claim_C9_metadata_amended (outputDir : String) (outputMinZoom outputMaxZoom : ℕ)
    (timestamp : String) :
    ∃ md : Metadata,
      createMetadata outputDir outputMinZoom outputMaxZoom timestamp =
        [(pathJoin outputDir "metadata.json", md)] ∧
      md.type = "baselayer" ∧ md.format = "pbf" ∧
      md.minzoom = toString outputMinZoom ∧ md.maxzoom = toString outputMaxZoom ∧
      md.vectorLayers = [⟨"contours", [("ele", "Number"), ("level", "Number")],
        outputMinZoom, outputMaxZoom⟩] ∧
      md.bounds = "-180.000000,-85.051129,180.000000,85.051129" :=
  ⟨_, rfl, rfl, rfl, rfl, rfl, rfl, rfl⟩

theorem channelBytes_eq_divmod (v : ℤ) :
    channelBytes v = (v.toNat / 65536 % 256, v.toNat / 256 % 256, v.toNat % 256) := by
  unfold channelBytes
  have e1 : v.toNat >>> 16 = v.toNat / 65536 := by
    rw [Nat.shiftRight_eq_div_pow]
  have e2 : v.toNat >>> 8 = v.toNat / 256 := by
    rw [Nat.shiftRight_eq_div_pow]
  have e3 : ∀ m : ℕ, m &&& 255 = m % 256 := by
    intro m
    have h := Nat.and_pow_two_sub_one_eq_mod m 8
    norm_num at h
    exact h
  rw [e1, e2, e3, e3, e3]

/-- The terrarium half of the §8 round-trip property holds in the source:
for every elevation within the encoding's representable range, synthesizing a
blank tile and decoding it recovers the elevation within the 1/256 m
quantization step.  (The mapbox half fails; see the C7 theorem.) -/
theorem terrarium_roundtrip_ok (E : ℚ) (h1 : -32768 ≤ E) (h2 : E ≤ 32767) :
    |decodeElevation .terrarium (channelBytes (blankChannelValue .terrarium E)) - E| ≤
      1 / 256 := by
  set x : ℚ := (E + 32768) * 256 with hxdef
  set v : ℤ := round x with hv
  have hx0 : (0 : ℚ) ≤ x := by rw [hxdef]; nlinarith
  have hx1 : x ≤ 16776960 := by rw [hxdef]; nlinarith
  have hv_lo : 0 ≤ v := by
    rw [hv, round_eq]
    exact Int.floor_nonneg.mpr (by linarith)
  have hv_hi : v ≤ 16776960 := by
    rw [hv, round_eq]
    calc ⌊x + 1 / 2⌋ ≤ ⌊(16776960 : ℚ) + 1 / 2⌋ := Int.floor_le_floor (by linarith)
    _ = 16776960 := by norm_num
  have hclamp : blankChannelValue .terrarium E = v := by
    show max 0 (min 0xffffff (round ((E + TERRARIUM_OFFSET) * TERRARIUM_MULT))) = v
    rw [show (E + TERRARIUM_OFFSET) * TERRARIUM_MULT = x from by rw [hxdef]; unfold TERRARIUM_OFFSET TERRARIUM_MULT; ring, ← hv]
    omega
  have hn : (v.toNat : ℤ) = v := Int.toNat_of_nonneg hv_lo
  have hnq : ((v.toNat : ℚ)) = ((v : ℤ) : ℚ) := by exact_mod_cast congrArg (fun z : ℤ => (z : ℚ)) hn
  have hsplit : v.toNat / 65536 % 256 * 65536 + v.toNat / 256 % 256 * 256 + v.toNat % 256 =
      v.toNat := by
    omega
  have key : ((v.toNat / 65536 % 256 : ℕ) : ℚ) * 256 + ((v.toNat / 256 % 256 : ℕ) : ℚ) +
      ((v.toNat % 256 : ℕ) : ℚ) / 256 = (v.toNat : ℚ) / 256 := by
    have hq := congrArg (fun m : ℕ => (m : ℚ)) hsplit
    push_cast at hq
    field_simp
    linarith
  have hdec : decodeElevation .terrarium (channelBytes v) - E = ((v : ℚ) - x) / 256 := by
    rw [channelBytes_eq_divmod]
    show ((v.toNat / 65536 % 256 : ℕ) : ℚ) * 256 + ((v.toNat / 256 % 256 : ℕ) : ℚ) +
        ((v.toNat % 256 : ℕ) : ℚ) / 256 - 32768 - E = ((v : ℚ) - x) / 256
    rw [key, hnq, hxdef]
    ring
  have habs : |x - (v : ℚ)| ≤ 1 / 2 := by
    rw [hv]
    exact abs_sub_round x
  rw [hclamp, hdec, abs_div, abs_of_pos (show (0 : ℚ) < 256 by norm_num)]
  rw [abs_sub_comm] at habs
  linarith

end ContourGen

